import Mathlib

/-!
Verification of the alert-analysis example system (alarm pool, debounce
ingestion, multi-expert iterative analysis loop, report generation).

The Lean definitions below are a shallow embedding of the Go source:

* `Alarm`, `AlarmPool.Add`                   — unnamed/part_001 (pool.go)
* `ExpertAgent`, `ExpertAgent.analyzeWith`   — unnamed/part_000 (expert.go, skills.go)
* `makeDecision`, `collectResults`,
  `analyzeScenario`, `generateReport`        — examples/agent/alert_analysis/manager.go
* `loopFrom` / `analyzeRounds`               — unnamed/part_002 (AlertAnalysisSystem.Analyze)
* `debounceRun` / `debounceComplete`         — manager.go (AlarmManager.processAlarms)

Modelling conventions: Go `time.Time` / deadlines become `ℤ` instants passed
explicitly; `float64` confidences become `ℚ` (all constants in the source are
short decimals); a Go `nil` pointer becomes `none`, and an operation that
would dereference a nil pointer evaluates to `none` (panic) in an `Option`
result; Go maps keyed by strings become functions `String → Option _` with
pointwise update; console output that the spec treats as "recording" an event
is modelled as an explicit log list.
-/

/-- One alarm event (unnamed/part_001, `Alarm`).  The narrative fields that no
modelled operation inspects (metrics, labels, metadata) are omitted. -/
structure Alarm where
  ID : String
  Level : String
  Title : String
  Description : String
  Service : String
  Timestamp : ℤ
deriving DecidableEq, Repr

/-- Bounded, time-windowed alarm store (unnamed/part_001, `AlarmPool`). -/
structure AlarmPool where
  alarms : List Alarm
  maxSize : ℕ
  retention : ℤ
deriving DecidableEq, Repr

/-- `AlarmPool.Add` (unnamed/part_001 lines 38–55): append the alarm, drop
every stored alarm whose timestamp is not strictly after `now - retention`
(`Timestamp.After(cutoff)`), then if still over capacity keep only the last
`maxSize` entries (`alarms[len(alarms)-maxSize:]`).  `now` is the call time,
passed explicitly. -/
def AlarmPool.Add (ap : AlarmPool) (now : ℤ) (alarm : Alarm) : AlarmPool :=
  let appended := ap.alarms ++ [alarm]
  let cutoff := now - ap.retention
  let filtered := appended.filter (fun a => decide (cutoff < a.Timestamp))
  let kept := if ap.maxSize < filtered.length
    then filtered.drop (filtered.length - ap.maxSize)
    else filtered
  { ap with alarms := kept }

/-- C4: after every `Add`, each retained alarm's timestamp is within
`retention` of the call time (everything at or before `now - retention` is
evicted), the retained count never exceeds `maxSize`, and the retained
sequence is a suffix of the age-filtered sequence, i.e. on overflow only the
oldest (head) entries were dropped.  `Add` is a total function: it always
succeeds. -/
theorem alarmPool_add_invariant (ap : AlarmPool) (now : ℤ) (alarm : Alarm) :
    (∀ a ∈ (ap.Add now alarm).alarms, now - ap.retention < a.Timestamp) ∧
    (ap.Add now alarm).alarms.length ≤ ap.maxSize ∧
    (∃ dropped, dropped ++ (ap.Add now alarm).alarms
      = (ap.alarms ++ [alarm]).filter (fun a => decide (now - ap.retention < a.Timestamp))) := by
  unfold AlarmPool.Add
  set filtered := (ap.alarms ++ [alarm]).filter
      (fun a => decide (now - ap.retention < a.Timestamp)) with hf
  refine ⟨?_, ?_, ?_⟩
  · intro a ha
    simp only at ha
    split at ha
    · have := List.mem_of_mem_drop ha
      simpa using (List.of_mem_filter this)
    · simpa using (List.of_mem_filter ha)
  · simp only
    split
    · rw [List.length_drop]
      omega
    · omega
  · simp only
    split
    · exact ⟨filtered.take (filtered.length - ap.maxSize), filtered.take_append_drop _⟩
    · exact ⟨[], rfl⟩

/-- One expert's per-round finding (unnamed/part_001, `ExpertAnalysisResult`). -/
structure ExpertAnalysisResult where
  ExpertName : String
  ExpertType : String
  Analysis : String
  Findings : List String
  Confidence : ℚ
  Recommendations : List String
deriving DecidableEq, Repr

/-- Per-round manager decision (unnamed/part_001, `ManagerDecision`). -/
structure ManagerDecision where
  ContinueAnalysis : Bool
  Reasoning : String
  NextSteps : List String
  Decision : String
deriving DecidableEq, Repr

/-- The high-confidence scan inside `makeDecision` (manager.go lines 129–135):
walk the result slice, returning `true` and breaking at the first entry with
`Confidence > 0.8`.  The slice elements are pointers; reading `Confidence`
from a `nil` entry is a nil dereference (panic), modelled as `none`. -/
def hasHighConfidenceScan : List (Option ExpertAnalysisResult) → Option Bool
  | [] => some false
  | none :: _ => none
  | some r :: rest =>
    if (0.8 : ℚ) < r.Confidence then some true else hasHighConfidenceScan rest

/-- `ManagerAgent.makeDecision` (manager.go lines 115–162).  `iteration` is
`context.Iteration`, `maxRounds` the manager's configured bound.  The call to
`buildDecisionPrompt` is dead (its value is discarded, and it dereferences
results only behind nil checks), so it is not modelled.  Evaluation is `none`
exactly when the Go code would panic in the confidence scan. -/
def makeDecision (iteration maxRounds : ℕ)
    (results : List (Option ExpertAnalysisResult)) : Option ManagerDecision :=
  match hasHighConfidenceScan results with
  | none => none
  | some hasHighConfidence =>
    let continueAnalysis0 := decide (iteration < maxRounds)
    let reasoning0 := "基于专家分析结果，需要进一步验证"
    let stopEarly := hasHighConfidence && decide (2 ≤ iteration)
    let continueAnalysis := if stopEarly then false else continueAnalysis0
    let reasoning := if stopEarly then "已获得高置信度分析结果，可以结束迭代" else reasoning0
    let nextSteps :=
      if continueAnalysis then ["继续深入分析根因", "验证专家们的发现"]
      else ["准备生成最终报告"]
    some
      { ContinueAnalysis := continueAnalysis
        Reasoning := reasoning
        NextSteps := nextSteps
        Decision := "第 " ++ toString iteration ++ " 轮分析完成，" ++
          (if continueAnalysis then "继续迭代" else "结束分析") }

/-- When the scan completes without panicking, its boolean is `true` exactly
when some collected (non-nil) finding has confidence above 0.8. -/
lemma hasHighConfidenceScan_spec :
    ∀ (results : List (Option ExpertAnalysisResult)) (b : Bool),
      hasHighConfidenceScan results = some b →
      (b = true ↔ ∃ x, some x ∈ results ∧ (0.8 : ℚ) < x.Confidence) := by
  intro results
  induction results with
  | nil => intro b hb; simp [hasHighConfidenceScan] at hb; simp [← hb]
  | cons o rest ih =>
    intro b hb
    match o with
    | none => simp [hasHighConfidenceScan] at hb
    | some r =>
      by_cases hc : (0.8 : ℚ) < r.Confidence
      · simp [hasHighConfidenceScan, hc] at hb
        subst hb
        simp only [true_iff]
        exact ⟨r, by simp, hc⟩
      · simp [hasHighConfidenceScan, hc] at hb
        rw [ih b hb]
        constructor
        · rintro ⟨x, hx, hxc⟩; exact ⟨x, by simp [hx], hxc⟩
        · rintro ⟨x, hx, hxc⟩
          rcases List.mem_cons.mp hx with h | h
          · cases Option.some.inj h; exact absurd hxc hc
          · exact ⟨x, h, hxc⟩

/-- A scan over an all-non-nil slice never panics. -/
lemma hasHighConfidenceScan_isSome :
    ∀ (results : List (Option ExpertAnalysisResult)),
      (∀ o ∈ results, o ≠ none) → (hasHighConfidenceScan results).isSome = true := by
  intro results
  induction results with
  | nil => intro; simp [hasHighConfidenceScan]
  | cons o rest ih =>
    intro h
    match o with
    | none => exact absurd rfl (h none (by simp))
    | some r =>
      by_cases hc : (0.8 : ℚ) < r.Confidence
      · simp [hasHighConfidenceScan, hc]
      · simp only [hasHighConfidenceScan, hc, if_false]
        exact ih (fun o ho => h o (by simp [ho]))

/-- A concrete finding with confidence 0.9 (above the 0.8 threshold). -/
def cHigh : ExpertAnalysisResult :=
  { ExpertName := "故障诊断专家", ExpertType := "fault_diagnosis"
    Analysis := "示例", Findings := [], Confidence := 0.9, Recommendations := [] }

/-- A concrete finding with the reference confidence 0.75. -/
def cRef : ExpertAnalysisResult :=
  { ExpertName := "性能分析专家", ExpertType := "performance_analysis"
    Analysis := "示例", Findings := [], Confidence := 0.75, Recommendations := [] }

/-- A round's results as the reference analyzers produce them: three non-nil
findings at confidence 0.75. -/
def sampleRefResults : List (Option ExpertAnalysisResult) := [some cRef, some cRef, some cRef]

/-- C1: the convergence decision.  Whenever the confidence scan completes with
boolean `b`, the decision's continue flag is `iteration < maxRounds` masked by
the early stop `b ∧ iteration ≥ 2`; `b` holds exactly when some collected
finding's confidence exceeds 0.8; and in particular for any results containing
a finding with confidence > 0.8 at a round ≥ 2, that round's decision has
continue = false. -/
theorem makeDecision_convergence (iteration maxRounds : ℕ)
    (results : List (Option ExpertAnalysisResult)) (b : Bool)
    (hscan : hasHighConfidenceScan results = some b) :
    (makeDecision iteration maxRounds results).map ManagerDecision.ContinueAnalysis
        = some ((decide (iteration < maxRounds)) && !(b && decide (2 ≤ iteration)))
    ∧ (b = true ↔ ∃ x, some x ∈ results ∧ (0.8 : ℚ) < x.Confidence)
    ∧ (((∃ x, some x ∈ results ∧ (0.8 : ℚ) < x.Confidence) ∧ 2 ≤ iteration) →
        (makeDecision iteration maxRounds results).map ManagerDecision.ContinueAnalysis
          = some false) := by
  have hiff := hasHighConfidenceScan_spec results b hscan
  have hmap : (makeDecision iteration maxRounds results).map ManagerDecision.ContinueAnalysis
      = some ((decide (iteration < maxRounds)) && !(b && decide (2 ≤ iteration))) := by
    unfold makeDecision
    rw [hscan]
    cases hs : (b && decide (2 ≤ iteration)) <;> simp [hs]
  refine ⟨hmap, hiff, ?_⟩
  rintro ⟨hex, hit⟩
  have hb : b = true := hiff.mpr hex
  rw [hmap, hb]
  simp [hit]

/-- Witness for C1 at a concrete input: one collected finding of confidence
0.9 at round 2 of 3 makes the decision stop. -/
theorem makeDecision_convergence_witness :
    hasHighConfidenceScan [some cHigh] = some true ∧
    (makeDecision 2 3 [some cHigh]).map ManagerDecision.ContinueAnalysis = some false :=
  ⟨by norm_num [hasHighConfidenceScan, cHigh],
   (makeDecision_convergence 2 3 [some cHigh] true
       (by norm_num [hasHighConfidenceScan, cHigh])).2.2
     ⟨⟨cHigh, by simp, by norm_num [cHigh]⟩, by norm_num⟩⟩

/-- A continue decision implies the round is below the configured bound. -/
lemma makeDecision_continue_lt (iteration maxRounds : ℕ)
    (results : List (Option ExpertAnalysisResult)) (d : ManagerDecision)
    (hd : makeDecision iteration maxRounds results = some d)
    (hc : d.ContinueAnalysis = true) : iteration < maxRounds := by
  unfold makeDecision at hd
  cases hscan : hasHighConfidenceScan results with
  | none => rw [hscan] at hd; exact absurd hd (by simp)
  | some b =>
    rw [hscan] at hd
    simp only [Option.some.injEq] at hd
    subst hd
    by_cases hs : (b && decide (2 ≤ iteration)) = true
    · simp [hs] at hc
    · simp [hs] at hc
      simpa using hc

/-- The round loop of `AlertAnalysisSystem.Analyze` (unnamed/part_002 lines
110–140), as a function of the per-round fan-in outcome `resultsOf`:
`for i := 1; i <= estimatedRounds; i++` runs `AnalyzeIteration`, records the
round, and breaks when the round's decision has `ContinueAnalysis = false`.
`rem` counts the remaining loop iterations (`estimatedRounds - i + 1`), so the
recursion mirrors the Go loop bound exactly.  The value is the list of
executed round numbers; `none` if a round's decision panicked. -/
def loopFrom (maxRounds : ℕ) (resultsOf : ℕ → List (Option ExpertAnalysisResult)) :
    ℕ → ℕ → Option (List ℕ)
  | _, 0 => some []
  | i, rem + 1 =>
    match makeDecision i maxRounds (resultsOf i) with
    | none => none
    | some d =>
      if d.ContinueAnalysis
      then (loopFrom maxRounds resultsOf (i + 1) rem).map (fun l => i :: l)
      else some [i]

/-- The full analysis loop: rounds start at 1 and the loop bound is the
classification's estimated round count. -/
def analyzeRounds (maxRounds estimatedRounds : ℕ)
    (resultsOf : ℕ → List (Option ExpertAnalysisResult)) : Option (List ℕ) :=
  loopFrom maxRounds resultsOf 1 estimatedRounds

/-- Executed rounds are consecutive from the start, bounded by the remaining
budget, and every executed round except possibly the last is below
`maxRounds`. -/
lemma loopFrom_spec (maxRounds : ℕ) (resultsOf : ℕ → List (Option ExpertAnalysisResult)) :
    ∀ (rem i : ℕ) (l : List ℕ), loopFrom maxRounds resultsOf i rem = some l →
      l = List.range' i l.length ∧ l.length ≤ rem ∧
      ∀ j ∈ l, j < maxRounds ∨ j + 1 = i + l.length := by
  intro rem
  induction rem with
  | zero =>
    intro i l hl
    simp only [loopFrom, Option.some.injEq] at hl
    subst hl
    simp
  | succ rem ih =>
    intro i l hl
    simp only [loopFrom] at hl
    split at hl
    next => exact absurd hl (by simp)
    next d hd =>
      by_cases hc : d.ContinueAnalysis = true
      · rw [if_pos hc] at hl
        rcases Option.map_eq_some'.mp hl with ⟨l', hl', rfl⟩
        obtain ⟨hr, hlen, hbound⟩ := ih (i + 1) l' hl'
        refine ⟨?_, by simpa using Nat.succ_le_succ hlen, ?_⟩
        · rw [List.length_cons, List.range'_succ, ← hr]
        · intro j hj
          rcases List.mem_cons.mp hj with rfl | hj
          · exact Or.inl (makeDecision_continue_lt j maxRounds (resultsOf j) d hd hc)
          · rcases hbound j hj with h | h
            · exact Or.inl h
            · right; simp only [List.length_cons]; omega
      · rw [if_neg hc] at hl
        cases hl
        refine ⟨by simp [List.range'_succ], by simp, ?_⟩
        intro j hj
        rcases List.mem_cons.mp hj with rfl | hj
        · right; simp
        · simp at hj

/-- C2 counterexample to the claim as stated: with configured `maxRounds = 0`
and a classification estimate of 2 rounds, the loop still executes round 1
(the decision is only evaluated after the round has run), so it executes more
than `maxRounds` rounds. -/
theorem analyzeRounds_counterexample :
    analyzeRounds 0 2 (fun _ => sampleRefResults) = some [1] ∧
    ¬([1].length ≤ 0) := by
  constructor
  · norm_num [analyzeRounds, loopFrom, makeDecision, hasHighConfidenceScan,
      sampleRefResults, cRef]
  · decide

/-- C2 amended: the executed rounds are always the consecutive block
`1..k`; `k` never exceeds `estimatedRounds`; `k` never exceeds
`max 1 maxRounds` (one round can run even when `maxRounds = 0`, since the
decision is evaluated only after the round); and when `maxRounds ≥ 1` the
loop executes at most `min estimatedRounds maxRounds` rounds regardless of
the convergence outcome. -/
theorem analyzeRounds_bounded (maxRounds estimatedRounds : ℕ)
    (resultsOf : ℕ → List (Option ExpertAnalysisResult)) (l : List ℕ)
    (h : analyzeRounds maxRounds estimatedRounds resultsOf = some l) :
    l = List.range' 1 l.length ∧ l.length ≤ estimatedRounds ∧
    l.length ≤ max 1 maxRounds ∧
    (1 ≤ maxRounds → l.length ≤ min estimatedRounds maxRounds) := by
  obtain ⟨hr, hlen, hbound⟩ := loopFrom_spec maxRounds resultsOf estimatedRounds 1 l h
  have hM : l.length ≤ 1 ∨ l.length ≤ maxRounds := by
    by_cases h1 : l.length ≤ 1
    · exact Or.inl h1
    · right
      have hmem : l.length - 1 ∈ List.range' 1 l.length := by
        rw [List.mem_range'_1]
        omega
      rw [← hr] at hmem
      rcases hbound _ hmem with hlt | heq
      · omega
      · omega
  rcases hM with h1 | h1
  · exact ⟨hr, hlen, by omega, fun hm => by omega⟩
  · exact ⟨hr, hlen, by omega, fun hm => by omega⟩

/-- Witness for C2 amended at a concrete input: `maxRounds = 2`,
`estimatedRounds = 3`, reference-confidence findings every round — the loop
runs exactly rounds 1 and 2. -/
theorem analyzeRounds_bounded_witness :
    analyzeRounds 2 3 (fun _ => sampleRefResults) = some [1, 2] ∧
    ([1, 2] = List.range' 1 [1, 2].length ∧ [1, 2].length ≤ 3 ∧
      [1, 2].length ≤ max 1 2 ∧ (1 ≤ 2 → [1, 2].length ≤ min 3 2)) :=
  ⟨by norm_num [analyzeRounds, loopFrom, makeDecision, hasHighConfidenceScan,
      sampleRefResults, cRef],
   analyzeRounds_bounded 2 3 (fun _ => sampleRefResults) [1, 2]
     (by norm_num [analyzeRounds, loopFrom, makeDecision, hasHighConfidenceScan,
        sampleRefResults, cRef])⟩

/-- The scan panics when a nil entry is reached before any high-confidence
finding: a prefix of collected low-confidence findings does not save it. -/
lemma hasHighConfidenceScan_panic :
    ∀ (pre rest : List (Option ExpertAnalysisResult)),
      (∀ o ∈ pre, ∃ x, o = some x ∧ ¬((0.8 : ℚ) < x.Confidence)) →
      hasHighConfidenceScan (pre ++ none :: rest) = none := by
  intro pre
  induction pre with
  | nil => intro rest _; rfl
  | cons o pre ih =>
    intro rest h
    obtain ⟨x, rfl, hx⟩ := h o (by simp)
    simpa [hasHighConfidenceScan, hx] using ih rest (fun o ho => h o (by simp [ho]))

/-- `makeDecision` evaluates without panic exactly when the scan does. -/
lemma makeDecision_isSome_iff (iteration maxRounds : ℕ)
    (results : List (Option ExpertAnalysisResult)) :
    (makeDecision iteration maxRounds results).isSome
      = (hasHighConfidenceScan results).isSome := by
  unfold makeDecision
  cases hasHighConfidenceScan results <;> simp

/-- C9 counterexample to the claim as stated: `makeDecision` can be
well-defined on a result array with a nil position — the confidence scan
breaks at the first finding above 0.8, so a nil after it is never read.
All-non-nil is therefore not a necessary precondition. -/
theorem makeDecision_nil_safety_counterexample :
    (makeDecision 2 3 [some cHigh, none]).isSome = true ∧
    ¬(∀ o ∈ [some cHigh, none], o ≠ (none : Option ExpertAnalysisResult)) := by
  constructor
  · norm_num [makeDecision, hasHighConfidenceScan, cHigh]
  · decide

/-- C9 amended: the scan reads `Confidence` with no nil check until it finds
the first confidence above 0.8, so all-non-nil is a sufficient (not a
necessary) precondition for `makeDecision` to be well-defined: every-position
non-nil implies no panic, while a nil reached before any high-confidence
finding makes the evaluation panic. -/
theorem makeDecision_nil_safety :
    (∀ (iteration maxRounds : ℕ) (results : List (Option ExpertAnalysisResult)),
      (∀ o ∈ results, o ≠ none) → (makeDecision iteration maxRounds results).isSome = true) ∧
    (∀ (iteration maxRounds : ℕ) (pre rest : List (Option ExpertAnalysisResult)),
      (∀ o ∈ pre, ∃ x, o = some x ∧ ¬((0.8 : ℚ) < x.Confidence)) →
      makeDecision iteration maxRounds (pre ++ none :: rest) = none) := by
  constructor
  · intro iteration maxRounds results h
    rw [makeDecision_isSome_iff]
    exact hasHighConfidenceScan_isSome results h
  · intro iteration maxRounds pre rest h
    unfold makeDecision
    rw [hasHighConfidenceScan_panic pre rest h]

/-- Witness for C9 amended at concrete inputs: a fully non-nil array is safe,
and a nil behind only low-confidence findings panics. -/
theorem makeDecision_nil_safety_witness :
    ((∀ o ∈ [some cRef], o ≠ (none : Option ExpertAnalysisResult)) ∧
      (makeDecision 2 3 [some cRef]).isSome = true) ∧
    makeDecision 1 3 ([some cRef] ++ none :: []) = none :=
  ⟨⟨by decide, makeDecision_nil_safety.1 2 3 [some cRef] (by decide)⟩,
   makeDecision_nil_safety.2 1 3 [some cRef] []
     (fun o ho => ⟨cRef, by simpa using ho, by norm_num [cRef]⟩)⟩

/-- Scenario classification output (manager.go, `ScenarioInfo`; the Go field
`Type` is called `scenarioType` here because `Type` is a Lean keyword). -/
structure ScenarioInfo where
  scenarioType : String
  Priority : String
  EstimatedRounds : ℕ
  FocusAreas : List String
  Strategy : String
deriving DecidableEq, Repr

/-- The severity tally loop of `analyzeScenario` (manager.go lines 290–302):
one pass over the batch, bumping the critical or warning counter according to
the `switch` on `alarm.Level`.  (The Go loop also fills a per-service map that
no output depends on; it is dead and not modelled.) -/
def severityCounts (alarms : List Alarm) : ℕ × ℕ :=
  alarms.foldl
    (fun cw a =>
      if a.Level = "critical" then (cw.1 + 1, cw.2)
      else if a.Level = "warning" then (cw.1, cw.2 + 1)
      else cw)
    (0, 0)

/-- `ManagerAgent.analyzeScenario` (manager.go lines 288–340). -/
def analyzeScenario (alarms : List Alarm) : ScenarioInfo :=
  let criticalCount := (severityCounts alarms).1
  let warningCount := (severityCounts alarms).2
  let scenarioType := if 0 < criticalCount then "严重故障" else "性能问题"
  let priority :=
    if 0 < criticalCount then "P0" else if 2 ≤ warningCount then "P1" else "P2"
  let estimatedRounds := if 3 < alarms.length ∨ 0 < criticalCount then 3 else 2
  { scenarioType := scenarioType
    Priority := priority
    EstimatedRounds := estimatedRounds
    FocusAreas := ["支付接口性能", "数据库连接管理"]
    Strategy := "采用多专家并行分析模式，每轮迭代综合各方意见，逐步缩小根因范围" }

/-- The tally loop counts exactly the critical and warning alarms (an alarm
level matches at most one branch of the `switch`). -/
lemma severityCounts_eq (alarms : List Alarm) :
    severityCounts alarms
      = (alarms.countP (fun a => decide (a.Level = "critical")),
         alarms.countP (fun a => decide (a.Level = "warning"))) := by
  suffices h : ∀ (l : List Alarm) (c w : ℕ),
      l.foldl
        (fun cw a =>
          if a.Level = "critical" then (cw.1 + 1, cw.2)
          else if a.Level = "warning" then (cw.1, cw.2 + 1)
          else cw)
        (c, w)
      = (c + l.countP (fun a => decide (a.Level = "critical")),
         w + l.countP (fun a => decide (a.Level = "warning"))) by
    simpa [severityCounts] using h alarms 0 0
  intro l
  induction l with
  | nil => intro c w; simp
  | cons a rest ih =>
    intro c w
    by_cases hc : a.Level = "critical"
    · have hw : ¬ a.Level = "warning" := by rw [hc]; decide
      simp only [List.foldl_cons, if_pos hc, ih, List.countP_cons, hc, hw]
      simp
      omega
    · by_cases hw : a.Level = "warning"
      · simp only [List.foldl_cons, if_neg hc, if_pos hw, ih, List.countP_cons, hc, hw]
        simp
        omega
      · simp only [List.foldl_cons, if_neg hc, if_neg hw, ih, List.countP_cons, hc, hw]
        simp

/-- C5: classification is a pure function of the batch; any critical alarm
yields the severe-fault scenario with priority P0; two or more warnings with
no critical yield P1; otherwise P2; the estimate is 3 rounds when the batch
has more than 3 alarms or any critical alarm, else 2. -/
theorem analyzeScenario_classification (alarms : List Alarm) :
    ((∃ a ∈ alarms, a.Level = "critical") →
        (analyzeScenario alarms).scenarioType = "严重故障" ∧
        (analyzeScenario alarms).Priority = "P0") ∧
    ((¬ ∃ a ∈ alarms, a.Level = "critical") →
        (2 ≤ alarms.countP (fun a => decide (a.Level = "warning")) →
            (analyzeScenario alarms).Priority = "P1") ∧
        (alarms.countP (fun a => decide (a.Level = "warning")) < 2 →
            (analyzeScenario alarms).Priority = "P2")) ∧
    ((3 < alarms.length ∨ ∃ a ∈ alarms, a.Level = "critical") →
        (analyzeScenario alarms).EstimatedRounds = 3) ∧
    ((alarms.length ≤ 3 ∧ ¬ ∃ a ∈ alarms, a.Level = "critical") →
        (analyzeScenario alarms).EstimatedRounds = 2) := by
  have hiff : 0 < alarms.countP (fun a => decide (a.Level = "critical"))
      ↔ ∃ a ∈ alarms, a.Level = "critical" := by
    rw [List.countP_pos_iff]
    simp
  refine ⟨?_, ?_, ?_, ?_⟩
  · intro hc
    have hcp := hiff.mpr hc
    simp [analyzeScenario, severityCounts_eq, hcp]
  · intro hc
    have hcp : ¬ 0 < alarms.countP (fun a => decide (a.Level = "critical")) :=
      fun h => hc (hiff.mp h)
    constructor
    · intro hw
      simp [analyzeScenario, severityCounts_eq, hcp, hw]
    · intro hw
      have hw2 : ¬ 2 ≤ alarms.countP (fun a => decide (a.Level = "warning")) := by omega
      simp [analyzeScenario, severityCounts_eq, hcp, hw2]
  · intro h
    rcases h with h | h
    · simp [analyzeScenario, severityCounts_eq, h]
    · simp [analyzeScenario, severityCounts_eq, hiff.mpr h]
  · rintro ⟨hlen, hc⟩
    have hcp : ¬ 0 < alarms.countP (fun a => decide (a.Level = "critical")) :=
      fun h => hc (hiff.mp h)
    have hl : ¬ 3 < alarms.length := by omega
    simp [analyzeScenario, severityCounts_eq, hcp, hl]

/-- The mock batch of `CreateMockAlarms` (manager.go lines 457–527): one
critical and two warning alarms; timestamps are seconds relative to "now". -/
def mockAlarms : List Alarm :=
  [{ ID := "ALERT-001", Level := "critical", Title := "API 响应时间异常"
     Description := "支付接口响应时间超过阈值 (P99 > 2000ms)"
     Service := "payment-service", Timestamp := -300 },
   { ID := "ALERT-002", Level := "warning", Title := "数据库连接数接近上限"
     Description := "PostgreSQL 连接数使用率达到 85%"
     Service := "payment-db", Timestamp := -180 },
   { ID := "ALERT-003", Level := "warning", Title := "内存使用率上升"
     Description := "Payment Service 内存使用率持续上升"
     Service := "payment-service", Timestamp := -120 }]

/-- Witness for C5 at the mock batch (1 critical + 2 warnings): severe-fault
scenario, priority P0, estimated rounds 3 — the spec's example scenario. -/
theorem analyzeScenario_classification_witness :
    (∃ a ∈ mockAlarms, a.Level = "critical") ∧
    ((analyzeScenario mockAlarms).scenarioType = "严重故障" ∧
      (analyzeScenario mockAlarms).Priority = "P0") ∧
    (analyzeScenario mockAlarms).EstimatedRounds = 3 :=
  have hc : ∃ a ∈ mockAlarms, a.Level = "critical" := ⟨mockAlarms.head (by decide), by decide, by decide⟩
  ⟨hc, (analyzeScenario_classification mockAlarms).1 hc,
   (analyzeScenario_classification mockAlarms).2.2.1 (Or.inr hc)⟩

/-- One completed round (manager.go, `IterationResult`). -/
structure IterationResult where
  Iteration : ℕ
  ExpertResults : List (Option ExpertAnalysisResult)
  Decision : ManagerDecision
  Timestamp : ℤ

/-- The final report (unnamed/part_001, `FinalReport`); the per-expert map is
modelled as a lookup function, `EstimatedResolution` in nanoseconds. -/
structure FinalReport where
  Summary : String
  RootCause : String
  BusinessImpact : String
  PerformanceAnalysis : String
  Recommendations : List String
  Priority : String
  EstimatedResolution : ℤ
  ExpertResults : String → Option ExpertAnalysisResult
  IterationsCompleted : ℕ

/-- Go map assignment `expertResults[result.ExpertName] = *result`. -/
def updateResultMap (m : String → Option ExpertAnalysisResult)
    (r : ExpertAnalysisResult) : String → Option ExpertAnalysisResult :=
  fun k => if k = r.ExpertName then some r else m k

/-- The nil check in the collection loop: a nil slot leaves the map alone, a
non-nil result is written under its expert name. -/
def applyResult (m : String → Option ExpertAnalysisResult) :
    Option ExpertAnalysisResult → String → Option ExpertAnalysisResult
  | none => m
  | some r => updateResultMap m r

/-- The collection loop of `GenerateReport` (manager.go lines 169–176): for
each iteration in order, for each (possibly nil) expert result in order,
write every non-nil result into the map under its expert name. -/
def collectReportResults (iterations : List IterationResult) :
    String → Option ExpertAnalysisResult :=
  iterations.foldl
    (fun m it => it.ExpertResults.foldl applyResult m)
    (fun _ => none)

/-- `ManagerAgent.GenerateReport` (manager.go lines 165–208); the narrative
fields are the source's constants, `buildReportPrompt` is dead code. -/
def generateReport (iterations : List IterationResult) : FinalReport :=
  { Summary := "检测到支付服务存在严重性能问题，可能导致业务损失"
    RootCause := "数据库连接池配置不当导致连接耗尽，进而影响API响应时间"
    BusinessImpact := "影响约1500名用户，支付成功率下降约5%，预计造成收入损失"
    PerformanceAnalysis := "P99延迟从200ms上升至2340ms，数据库连接使用率达到85%"
    Recommendations :=
      ["立即增加数据库连接池大小", "优化慢查询，添加必要索引",
       "实施连接池监控和告警", "考虑实施读写分离架构"]
    Priority := "P0 - 紧急"
    EstimatedResolution := 7200000000000
    ExpertResults := collectReportResults iterations
    IterationsCompleted := iterations.length }

lemma getLast?_cons_or {α : Type} (a : α) (l : List α) :
    (a :: l).getLast? = l.getLast?.or (some a) := by
  cases l with
  | nil => rfl
  | cons b t =>
    obtain ⟨x, hx⟩ :=
      Option.isSome_iff_exists.mp ((List.getLast?_isSome (l := b :: t)).mpr (by simp))
    rw [List.getLast?_cons_cons, hx]
    rfl

/-- One round's inner collection loop looks up to the last matching non-nil
finding of that round, falling back to the incoming map. -/
lemma collectRound_char (rs : List (Option ExpertAnalysisResult))
    (m : String → Option ExpertAnalysisResult) (k : String) :
    (rs.foldl applyResult m) k
      = (((rs.filterMap id).filter (fun r => decide (r.ExpertName = k))).getLast?).or (m k) := by
  induction rs generalizing m with
  | nil => simp
  | cons o rest ih =>
    match o with
    | none => simpa [applyResult] using ih m
    | some r =>
      have hfm : List.filterMap id (some r :: rest) = r :: List.filterMap id rest := by
        simp
      rw [List.foldl_cons]
      show (rest.foldl applyResult (updateResultMap m r)) k = _
      rw [ih (updateResultMap m r), hfm]
      by_cases hk : r.ExpertName = k
      · have hfilter : (r :: rest.filterMap id).filter (fun x => decide (x.ExpertName = k))
            = r :: (rest.filterMap id).filter (fun x => decide (x.ExpertName = k)) := by
          simp [List.filter_cons, hk]
        have hupd : (updateResultMap m r) k = some r := by
          simp [updateResultMap, hk.symm]
        rw [hfilter, getLast?_cons_or, Option.or_assoc, Option.or_some, hupd]
      · have hfilter : (r :: rest.filterMap id).filter (fun x => decide (x.ExpertName = k))
            = (rest.filterMap id).filter (fun x => decide (x.ExpertName = k)) := by
          simp [List.filter_cons, hk]
        have hupd : (updateResultMap m r) k = m k := by
          unfold updateResultMap
          rw [if_neg (fun h => hk h.symm)]
        rw [hfilter, hupd]

/-- The whole collection fold looks up the last matching finding across all
rounds in order (later rounds override earlier ones). -/
lemma collectReportResults_char (iterations : List IterationResult) (k : String) :
    collectReportResults iterations k
      = ((iterations.flatMap (fun it => it.ExpertResults.filterMap id)).filter
          (fun r => decide (r.ExpertName = k))).getLast? := by
  suffices h : ∀ (its : List IterationResult) (m : String → Option ExpertAnalysisResult),
      (its.foldl (fun m it => it.ExpertResults.foldl applyResult m) m) k
        = ((its.flatMap (fun it => it.ExpertResults.filterMap id)).filter
            (fun r => decide (r.ExpertName = k))).getLast?.or (m k) by
    rw [collectReportResults, h iterations (fun _ => none), Option.or_none]
  intro its
  induction its with
  | nil => intro m; simp
  | cons it rest ih =>
    intro m
    simp only [List.foldl_cons, ih, List.flatMap_cons, List.filter_append,
      List.getLast?_append, collectRound_char, Option.or_assoc]

/-- C6: report building folds all rounds' findings into a map keyed by
analyzer identity with last-write-wins across rounds (nil slots skipped),
records `IterationsCompleted` as the exact number of completed rounds, and
with zero completed rounds still produces a report whose findings map is
empty. -/
theorem generateReport_folds (iterations : List IterationResult) (name : String) :
    (generateReport iterations).IterationsCompleted = iterations.length ∧
    (generateReport iterations).ExpertResults name
      = ((iterations.flatMap (fun it => it.ExpertResults.filterMap id)).filter
          (fun r => decide (r.ExpertName = name))).getLast? ∧
    (iterations = [] → (generateReport iterations).ExpertResults name = none) := by
  refine ⟨rfl, collectReportResults_char iterations name, ?_⟩
  rintro rfl
  rfl

/-- Witness for C6 at the concrete zero-round input: the report is still
produced, with an empty findings map. -/
theorem generateReport_folds_witness :
    (([] : List IterationResult) = []) ∧
    (generateReport []).ExpertResults "性能分析专家" = none :=
  ⟨rfl, (generateReport_folds [] "性能分析专家").2.2 rfl⟩

/-- The matching scan inside the fan-in loop (manager.go lines 90–95): walk
the configured expert list and return the index of the first expert whose
name equals the received result's expert name (the Go loop breaks at the
first match). -/
def firstMatch (name : String) : List String → Option ℕ
  | [] => none
  | n :: rest => if n = name then some 0 else (firstMatch name rest).map (· + 1)

/-- Placing one received result (manager.go lines 88–95): write it at its
originating expert's index, or discard it if no configured expert has its
name. -/
def placeResult (names : List String) (acc : List (Option ExpertAnalysisResult))
    (r : ExpertAnalysisResult) : List (Option ExpertAnalysisResult) :=
  match firstMatch r.ExpertName names with
  | some j => acc.set j (some r)
  | none => acc

/-- The fan-in collection of `AnalyzeIteration` (manager.go lines 66–99):
`expertResults` starts as `len(experts)` nil slots; the successful results —
in whatever completion order they arrive — are each placed at their
originating expert's position; failed analyzers contribute nothing. -/
def collectResults (names : List String) (arrivals : List ExpertAnalysisResult) :
    List (Option ExpertAnalysisResult) :=
  arrivals.foldl (placeResult names) (List.replicate names.length none)

lemma firstMatch_some (name : String) :
    ∀ (names : List String) (j : ℕ), firstMatch name names = some j →
      names[j]? = some name := by
  intro names
  induction names with
  | nil => intro j h; simp [firstMatch] at h
  | cons n rest ih =>
    intro j h
    by_cases hn : n = name
    · simp [firstMatch, hn] at h
      subst h
      simp [hn]
    · simp only [firstMatch, if_neg hn, Option.map_eq_some'] at h
      obtain ⟨j0, hj0, rfl⟩ := h
      simpa using ih j0 hj0

lemma firstMatch_none (name : String) :
    ∀ (names : List String), firstMatch name names = none →
      ∀ n ∈ names, n ≠ name := by
  intro names
  induction names with
  | nil => intro _ n hn; simp at hn
  | cons m rest ih =>
    intro h n hn
    by_cases hm : m = name
    · simp [firstMatch, hm] at h
    · simp only [firstMatch, if_neg hm, Option.map_eq_none'] at h
      rcases List.mem_cons.mp hn with rfl | hn
      · exact hm
      · exact ih h n hn

lemma firstMatch_isSome_of_mem (name : String) :
    ∀ (names : List String), name ∈ names → (firstMatch name names).isSome = true := by
  intro names
  induction names with
  | nil => intro h; simp at h
  | cons n rest ih =>
    intro h
    by_cases hn : n = name
    · simp [firstMatch, hn]
    · rcases List.mem_cons.mp h with rfl | h
      · exact absurd rfl hn
      · simp only [firstMatch, if_neg hn, Option.isSome_map']
        exact ih h

lemma nodup_getElem?_inj {names : List String} (hnd : names.Nodup) {k j : ℕ} {x : String}
    (hk : names[k]? = some x) (hj : names[j]? = some x) : k = j := by
  obtain ⟨hk1, hk2⟩ := List.getElem?_eq_some_iff.mp hk
  obtain ⟨hj1, hj2⟩ := List.getElem?_eq_some_iff.mp hj
  exact (List.Nodup.getElem_inj_iff hnd).mp (hk2.trans hj2.symm)

lemma placeResult_length (names : List String) (acc : List (Option ExpertAnalysisResult))
    (r : ExpertAnalysisResult) : (placeResult names acc r).length = acc.length := by
  unfold placeResult
  cases firstMatch r.ExpertName names <;> simp

lemma placeResult_getElem?_ne (names : List String)
    (acc : List (Option ExpertAnalysisResult)) (r : ExpertAnalysisResult) (j : ℕ)
    (hne : names[j]? ≠ some r.ExpertName) :
    (placeResult names acc r)[j]? = acc[j]? := by
  unfold placeResult
  cases hfm : firstMatch r.ExpertName names with
  | none => rfl
  | some k =>
    have hk := firstMatch_some r.ExpertName names k hfm
    have hkj : k ≠ j := fun h => hne (h ▸ hk)
    exact List.getElem?_set_ne hkj

lemma placeResult_getElem?_eq (names : List String) (hnd : names.Nodup)
    (acc : List (Option ExpertAnalysisResult)) (r : ExpertAnalysisResult) (j : ℕ)
    (hlen : acc.length = names.length)
    (heq : names[j]? = some r.ExpertName) :
    (placeResult names acc r)[j]? = some (some r) := by
  have hmem : r.ExpertName ∈ names := List.mem_iff_getElem?.mpr ⟨j, heq⟩
  obtain ⟨k, hfm⟩ :=
    Option.isSome_iff_exists.mp (firstMatch_isSome_of_mem r.ExpertName names hmem)
  have hk := firstMatch_some r.ExpertName names k hfm
  have hkj : k = j := nodup_getElem?_inj hnd hk heq
  subst hkj
  have hklt : k < acc.length := by
    obtain ⟨h1, _⟩ := List.getElem?_eq_some_iff.mp hk
    omega
  unfold placeResult
  rw [hfm]
  exact List.getElem?_set_self hklt

lemma collectFold_length (names : List String) :
    ∀ (arrivals : List ExpertAnalysisResult) (acc : List (Option ExpertAnalysisResult)),
      (arrivals.foldl (placeResult names) acc).length = acc.length := by
  intro arrivals
  induction arrivals with
  | nil => intro acc; rfl
  | cons a rest ih =>
    intro acc
    rw [List.foldl_cons, ih, placeResult_length]

lemma collectFold_getElem?_no_match (names : List String) :
    ∀ (arrivals : List ExpertAnalysisResult) (acc : List (Option ExpertAnalysisResult)) (j : ℕ),
      (∀ r ∈ arrivals, names[j]? ≠ some r.ExpertName) →
      (arrivals.foldl (placeResult names) acc)[j]? = acc[j]? := by
  intro arrivals
  induction arrivals with
  | nil => intro acc j _; rfl
  | cons a rest ih =>
    intro acc j h
    rw [List.foldl_cons, ih _ _ (fun r hr => h r (by simp [hr])),
      placeResult_getElem?_ne names acc a j (h a (by simp))]

lemma collectFold_getElem?_unique (names : List String) (hnd : names.Nodup) :
    ∀ (arrivals : List ExpertAnalysisResult) (acc : List (Option ExpertAnalysisResult))
      (j : ℕ) (r0 : ExpertAnalysisResult),
      acc.length = names.length →
      (∃ r ∈ arrivals, names[j]? = some r.ExpertName) →
      (∀ r ∈ arrivals, names[j]? = some r.ExpertName → r = r0) →
      (arrivals.foldl (placeResult names) acc)[j]? = some (some r0) := by
  intro arrivals
  induction arrivals with
  | nil => intro acc j r0 _ hex _; simp at hex
  | cons a rest ih =>
    intro acc j r0 hlen hex huniq
    rw [List.foldl_cons]
    by_cases hrest : ∃ r ∈ rest, names[j]? = some r.ExpertName
    · exact ih (placeResult names acc a) j r0
        ((placeResult_length names acc a).trans hlen)
        hrest (fun r hr => huniq r (by simp [hr]))
    · have hnomatch : ∀ r ∈ rest, names[j]? ≠ some r.ExpertName := by
        intro r hr hcon
        exact hrest ⟨r, hr, hcon⟩
      rw [collectFold_getElem?_no_match names rest _ j hnomatch]
      have ha : names[j]? = some a.ExpertName := by
        rcases hex with ⟨r, hr, hname⟩
        rcases List.mem_cons.mp hr with rfl | hr
        · exact hname
        · exact absurd hname (hnomatch r hr)
      have ha0 : a = r0 := huniq a (by simp) ha
      subst ha0
      exact placeResult_getElem?_eq names hnd acc a j hlen ha

/-- C3: for `N` configured analyzers with distinct names, the fan-in builds a
result array of exactly `N` positions in which every successful analyzer's
result sits at the index of its originating analyzer — matched by analyzer
identity and independent of the arrival (completion) order — and a failed
analyzer leaves its own position `none` without shifting or affecting the
others.  `outcomes` records per position which analyzer succeeded and with
what result; `arrivals` is any completion order of the successful results. -/
theorem collectResults_positional (names : List String)
    (outcomes : List (Option ExpertAnalysisResult))
    (arrivals : List ExpertAnalysisResult)
    (hnd : names.Nodup)
    (hlen : outcomes.length = names.length)
    (hcons : ∀ (j : ℕ) (r : ExpertAnalysisResult), outcomes[j]? = some (some r) →
      names[j]? = some r.ExpertName)
    (hperm : arrivals.Perm (outcomes.filterMap id)) :
    (collectResults names arrivals).length = names.length ∧
    collectResults names arrivals = outcomes := by
  have hmem_arr : ∀ r ∈ arrivals, ∃ k : ℕ, outcomes[k]? = some (some r) := by
    intro r hr
    have : r ∈ outcomes.filterMap id := hperm.mem_iff.mp hr
    obtain ⟨o, ho, hid⟩ := List.mem_filterMap.mp this
    obtain ⟨k, _, hk⟩ := List.mem_iff_getElem.mp ho
    exact ⟨k, by rw [List.getElem?_eq_some_iff]; exact ⟨by omega, by rw [hk]; exact hid⟩⟩
  have hlen' : (collectResults names arrivals).length = names.length := by
    rw [collectResults, collectFold_length, List.length_replicate]
  refine ⟨hlen', List.ext_getElem? ?_⟩
  intro j
  by_cases hj : j < names.length
  · cases houtj : outcomes[j]? with
    | none =>
      exact absurd houtj (by simp [List.getElem?_eq_none_iff]; omega)
    | some o =>
      cases o with
      | none =>
        have hnomatch : ∀ r ∈ arrivals, names[j]? ≠ some r.ExpertName := by
          intro r hr hname
          obtain ⟨k, hk⟩ := hmem_arr r hr
          have hkj : k = j := nodup_getElem?_inj hnd (hcons k r hk) hname
          rw [hkj, houtj] at hk
          exact absurd hk (by simp)
        rw [collectResults, collectFold_getElem?_no_match names arrivals _ j hnomatch,
          List.getElem?_replicate_of_lt hj]
      | some r0 =>
        have hex : ∃ r ∈ arrivals, names[j]? = some r.ExpertName := by
          refine ⟨r0, ?_, hcons j r0 houtj⟩
          rw [hperm.mem_iff]
          exact List.mem_filterMap.mpr ⟨some r0, List.mem_iff_getElem?.mpr ⟨j, houtj⟩, rfl⟩
        have huniq : ∀ r ∈ arrivals, names[j]? = some r.ExpertName → r = r0 := by
          intro r hr hname
          obtain ⟨k, hk⟩ := hmem_arr r hr
          have hkj : k = j := nodup_getElem?_inj hnd (hcons k r hk) hname
          rw [hkj, houtj] at hk
          exact (Option.some.inj (Option.some.inj hk)).symm
        rw [collectResults, collectFold_getElem?_unique names hnd arrivals _ j r0
          (by rw [List.length_replicate]) hex huniq]
  · rw [List.getElem?_eq_none (by omega), List.getElem?_eq_none (by omega)]

/-- Witness for C3 at a concrete input: two configured analyzers, the first
succeeds (result `cHigh`), the second fails; the lone arrival lands at
position 0 and position 1 stays `none`. -/
theorem collectResults_positional_witness :
    (["故障诊断专家", "性能分析专家"] : List String).Nodup ∧
    ((collectResults ["故障诊断专家", "性能分析专家"] [cHigh]).length = 2 ∧
      collectResults ["故障诊断专家", "性能分析专家"] [cHigh] = [some cHigh, none]) :=
  ⟨by decide,
   collectResults_positional ["故障诊断专家", "性能分析专家"] [some cHigh, none] [cHigh]
     (by decide) rfl
     (fun j r h => by
       match j with
       | 0 => simp at h; subst h; rfl
       | 1 => simp at h
       | n + 2 => simp at h)
     (List.Perm.refl _)⟩

/-- The ingestion coordinator's loop state (manager.go `processAlarms`):
the pending batch and the armed debounce deadline (`none` = timer stopped,
as after `timer.Stop()` at start-up or after an expiry). -/
structure PendingState where
  pending : List Alarm
  deadline : Option ℤ
deriving DecidableEq, Repr

/-- The event loop of `AlarmManager.processAlarms` (manager.go lines
417–447), driven by a time-ordered list of alarm arrivals; `Q` is the quiet
period (30 s in the source).  Processing an arrival at time `t`: if an armed
deadline `d` has already passed (`d < t`), the timer case fires first —
releasing the pending batch when non-empty and clearing it — and then the
arrival is appended to the (now empty) batch and the timer is re-armed to
`t + Q`; otherwise the arrival is appended and the timer reset to `t + Q`
(reset-on-activity).  Returns the released batches, time-stamped with the
deadline at which they fired, and the loop state after the last arrival.
An arrival at exactly an expiring deadline is a nondeterministic `select`
race in Go; the model lets the arrival win, which only matters at that
boundary. -/
def debounceRun (Q : ℤ) :
    List (ℤ × Alarm) → PendingState → List (ℤ × List Alarm) × PendingState
  | [], s => ([], s)
  | (t, a) :: rest, s =>
    match s.deadline with
    | some d =>
      if d < t then
        let released := if s.pending.isEmpty then ([] : List (ℤ × List Alarm))
          else [(d, s.pending)]
        let next := debounceRun Q rest { pending := [a], deadline := some (t + Q) }
        (released ++ next.1, next.2)
      else
        debounceRun Q rest { pending := s.pending ++ [a], deadline := some (t + Q) }
    | none => debounceRun Q rest { pending := s.pending ++ [a], deadline := some (t + Q) }

/-- Run the loop from the idle state on a whole arrival sequence and then let
the final armed timer expire (the loop keeps running after the last arrival,
so a non-empty pending batch is released at the last-armed deadline). -/
def debounceComplete (Q : ℤ) (arrivals : List (ℤ × Alarm)) :
    List (ℤ × List Alarm) × PendingState :=
  let run := debounceRun Q arrivals { pending := [], deadline := none }
  match run.2.deadline with
  | some d =>
    if run.2.pending.isEmpty then (run.1, run.2)
    else (run.1 ++ [(d, run.2.pending)], { pending := [], deadline := none })
  | none => run

/-- Inside a burst (every arrival within `Q` of its predecessor, the first
within the armed deadline), the loop releases nothing: it keeps accumulating
the batch and pushing the deadline to `lastArrival + Q`. -/
lemma debounceRun_burst (Q : ℤ) :
    ∀ (arrivals : List (ℤ × Alarm)) (p0 : List Alarm) (d : ℤ),
      (∀ ta ∈ arrivals.head?, ta.1 ≤ d) →
      List.Chain' (fun x y => y.1 ≤ x.1 + Q) arrivals →
      debounceRun Q arrivals { pending := p0, deadline := some d }
        = ([], { pending := p0 ++ arrivals.map Prod.snd,
                 deadline := some ((arrivals.map Prod.fst).getLast?.getD (d - Q) + Q) }) := by
  intro arrivals
  induction arrivals with
  | nil =>
    intro p0 d _ _
    simp [debounceRun]
  | cons ta rest ih =>
    intro p0 d hhead hchain
    obtain ⟨t, a⟩ := ta
    have ht : t ≤ d := hhead (t, a) (by simp)
    obtain ⟨hh, hc⟩ := List.chain'_cons'.mp hchain
    rw [show debounceRun Q ((t, a) :: rest) { pending := p0, deadline := some d }
        = if d < t then _ else
            debounceRun Q rest { pending := p0 ++ [a], deadline := some (t + Q) } from rfl]
    rw [if_neg (by omega)]
    rw [ih (p0 ++ [a]) (t + Q) (fun tb htb => by simpa using hh tb htb) hc]
    refine congrArg _ ?_
    have hpend : (p0 ++ [a]) ++ rest.map Prod.snd = p0 ++ (a :: rest.map Prod.snd) := by
      simp
    have hdl : (rest.map Prod.fst).getLast?.getD (t + Q - Q)
        = ((t :: rest.map Prod.fst).getLast?).getD (d - Q) := by
      rw [getLast?_cons_or]
      cases h : (rest.map Prod.fst).getLast? with
      | none => simp
      | some v => simp
    rw [PendingState.mk.injEq]
    constructor
    · exact hpend
    · rw [hdl]
      rfl

/-- C7: for a non-empty burst of arrivals in which consecutive alarms arrive
within one quiet period of each other, the pending batch is never released
while the burst is going on; it is released exactly once, one quiet period
after the last arrival, carrying every alarm of the burst in order, after
which the pending set is empty and the loop is idle (no armed timer). -/
theorem debounce_burst_single_release (Q t0 : ℤ) (a0 : Alarm)
    (rest : List (ℤ × Alarm))
    (hchain : List.Chain' (fun x y => x.1 ≤ y.1 ∧ y.1 ≤ x.1 + Q) ((t0, a0) :: rest)) :
    debounceComplete Q ((t0, a0) :: rest)
      = ([((rest.map Prod.fst).getLast?.getD t0 + Q, a0 :: rest.map Prod.snd)],
         { pending := [], deadline := none }) := by
  have hchainQ : List.Chain' (fun x y => y.1 ≤ x.1 + Q) ((t0, a0) :: rest) :=
    List.Chain'.imp (fun x y h => h.2) hchain
  obtain ⟨hh, hc⟩ := List.chain'_cons'.mp hchainQ
  unfold debounceComplete
  rw [show debounceRun Q ((t0, a0) :: rest) { pending := [], deadline := none }
      = debounceRun Q rest { pending := [] ++ [a0], deadline := some (t0 + Q) } from rfl]
  rw [debounceRun_burst Q rest ([] ++ [a0]) (t0 + Q) hh hc]
  have ht : t0 + Q - Q = t0 := by omega
  simp [ht]

/-- Three concrete alarms for the debounce witness. -/
def alarmA : Alarm :=
  { ID := "W-1", Level := "warning", Title := "t1", Description := "d1"
    Service := "svc", Timestamp := 0 }

def alarmB : Alarm :=
  { ID := "W-2", Level := "warning", Title := "t2", Description := "d2"
    Service := "svc", Timestamp := 10 }

def alarmC : Alarm :=
  { ID := "W-3", Level := "info", Title := "t3", Description := "d3"
    Service := "svc", Timestamp := 25 }

/-- Witness for C7 at a concrete input: a burst at times 0, 10, 25 with quiet
period 30 yields exactly one release at time 55 with all three alarms, and an
idle final state. -/
theorem debounce_burst_single_release_witness :
    List.Chain' (fun x y => x.1 ≤ y.1 ∧ y.1 ≤ x.1 + 30)
      [((0 : ℤ), alarmA), (10, alarmB), (25, alarmC)] ∧
    debounceComplete 30 [((0 : ℤ), alarmA), (10, alarmB), (25, alarmC)]
      = ([(55, [alarmA, alarmB, alarmC])],
         { pending := [], deadline := none }) := by
  have hch : List.Chain' (fun x y => x.1 ≤ y.1 ∧ y.1 ≤ x.1 + 30)
      [((0 : ℤ), alarmA), (10, alarmB), (25, alarmC)] := by
    simp [List.chain'_cons]
  constructor
  · exact hch
  · rw [debounce_burst_single_release 30 0 alarmA [(10, alarmB), (25, alarmC)] hch]
    rfl

/-- A capability's execution result (unnamed/part_000, `SkillResult`); only
the fields the modelled control flow reads are kept. -/
structure SkillResult where
  Success : Bool
  Message : String
  Confidence : ℚ
deriving DecidableEq, Repr

/-- A registered capability (unnamed/part_000, `Skill` interface): its display
name, its execution outcome (`Except.error` models a non-nil Go error), and
the key-info string `formatSkillData` extracts from its mock data. -/
structure Skill where
  name : String
  execute : Except String SkillResult
  dataInfo : String
deriving Repr

/-- The analysis context (unnamed/part_001, `AnalysisContext`). -/
structure AnalysisContext where
  Alarms : List Alarm
  Iteration : ℕ
  MaxRounds : ℕ
  PrevResults : List String
deriving DecidableEq, Repr

/-- An analyzer unit (unnamed/part_000, `ExpertAgent`): identity, kind, and
its owned capability identifiers. -/
structure ExpertAgent where
  name : String
  expertType : String
  skills : List String
deriving DecidableEq, Repr

/-- The fifteen capabilities `NewSkillRegistry` registers (unnamed/part_000
lines 1186–1209), with each mock `Execute`'s message and confidence and the
`formatSkillData` summary of its mock data; every registered capability
executes successfully (returns a nil error) in the source. -/
def registeredSkills : List (String × Skill) :=
  [("log_query",
    { name := "日志查询"
      execute := Except.ok { Success := true, Message := "成功查询日志", Confidence := 0.95 }
      dataInfo := "日志数:1523" }),
   ("metric_query",
    { name := "监控指标查询"
      execute := Except.ok { Success := true, Message := "成功查询监控指标", Confidence := 0.98 }
      dataInfo := "CPU:85.6%" }),
   ("trace_query",
    { name := "链路追踪"
      execute := Except.ok { Success := true, Message := "成功查询链路追踪信息", Confidence := 0.92 }
      dataInfo := "" }),
   ("topology_query",
    { name := "拓扑分析"
      execute := Except.ok { Success := true, Message := "成功分析服务拓扑", Confidence := 0.90 }
      dataInfo := "" }),
   ("timeseries_analysis",
    { name := "时间序列分析"
      execute := Except.ok { Success := true, Message := "检测到异常增长趋势", Confidence := 0.89 }
      dataInfo := "趋势:exponential_increase" }),
   ("correlation_analysis",
    { name := "关联分析"
      execute := Except.ok { Success := true, Message := "发现强关联关系", Confidence := 0.85 }
      dataInfo := "" }),
   ("pattern_matching",
    { name := "模式匹配"
      execute := Except.ok { Success := true, Message := "匹配到故障模式", Confidence := 0.88 }
      dataInfo := "" }),
   ("history_match",
    { name := "历史案例匹配"
      execute := Except.ok { Success := true, Message := "找到相似历史案例", Confidence := 0.91 }
      dataInfo := "相似案例:2" }),
   ("rootcause_analysis",
    { name := "根因分析"
      execute := Except.ok { Success := true, Message := "完成根因分析", Confidence := 0.84 }
      dataInfo := "根因数:2" }),
   ("fault_propagation",
    { name := "故障传播分析"
      execute := Except.ok { Success := true, Message := "完成故障传播分析", Confidence := 0.87 }
      dataInfo := "" }),
   ("slowquery_analysis",
    { name := "慢查询分析"
      execute := Except.ok { Success := true, Message := "发现慢查询", Confidence := 0.92 }
      dataInfo := "慢查询:2" }),
   ("errorlog_analysis",
    { name := "错误日志分析"
      execute := Except.ok { Success := true, Message := "完成错误日志分析", Confidence := 0.94 }
      dataInfo := "" }),
   ("resource_leak_detection",
    { name := "资源泄漏检测"
      execute := Except.ok { Success := true, Message := "检测到连接泄漏", Confidence := 0.82 }
      dataInfo := "" }),
   ("network_diagnosis",
    { name := "网络诊断"
      execute := Except.ok { Success := true, Message := "网络诊断正常", Confidence := 0.96 }
      dataInfo := "" }),
   ("memory_analysis",
    { name := "内存分析"
      execute := Except.ok { Success := true, Message := "内存使用较高但无泄漏", Confidence := 0.88 }
      dataInfo := "" })]

/-- `SkillRegistry.Get` over the registry `NewSkillRegistry` builds. -/
def skillRegistry (skillType : String) : Option Skill :=
  (registeredSkills.find? (fun p => p.1 = skillType)).map Prod.snd

/-- The three analyzer units `NewAlertAnalysisSystem` configures, with the
capability lists `NewExpertAgent` assigns per kind (unnamed/part_000 lines
42–150). -/
def faultExpert : ExpertAgent :=
  { name := "故障诊断专家", expertType := "fault_diagnosis"
    skills := ["log_query", "metric_query", "trace_query", "topology_query",
      "errorlog_analysis", "rootcause_analysis", "pattern_matching",
      "fault_propagation", "history_match"] }

def perfExpert : ExpertAgent :=
  { name := "性能分析专家", expertType := "performance_analysis"
    skills := ["metric_query", "timeseries_analysis", "correlation_analysis",
      "slowquery_analysis", "memory_analysis", "cpu_analysis", "disk_analysis",
      "database_analysis", "cache_analysis", "capacity_analysis"] }

def businessExpert : ExpertAgent :=
  { name := "业务影响专家", expertType := "business_impact"
    skills := ["topology_query", "history_match", "correlation_analysis",
      "anomaly_detection", "trend_analysis"] }

/-- The collected line for one successfully executed capability
(`fmt.Sprintf` of name, message and `formatSkillData` output). -/
def skillEntry (sk : Skill) (res : SkillResult) : String :=
  "[" ++ sk.name ++ "] " ++ res.Message ++ ": " ++ sk.dataInfo

/-- One step of the capability loop in `ExpertAgent.Analyze` (unnamed/part_000
lines 178–199): a capability absent from the registry appends a not-found
note to the console record and is skipped; a capability whose execution errors
is skipped; a success appends its collected line. -/
def skillStep (reg : String → Option Skill) (acc : List String × List String)
    (skillType : String) : List String × List String :=
  match reg skillType with
  | none => (acc.1 ++ [skillType ++ "(未找到)"], acc.2)
  | some sk =>
    match sk.execute with
    | Except.error _ => acc
    | Except.ok res => (acc.1, acc.2 ++ [skillEntry sk res])

/-- `ExpertAgent.Analyze` (unnamed/part_000 lines 163–229), with the registry
it would build internally abstracted as the parameter `reg` so that failing
executions are expressible.  First component: the console record of not-found
capabilities; second: the Go return pair, whose error is always nil
(`Except.ok`).  The finding: a header naming the analyzer, one line per
successfully executed capability, a trailing verification note when any
capability succeeded, the fixed confidence 0.75 and fixed recommendations. -/
def ExpertAgent.analyzeWith (e : ExpertAgent) (reg : String → Option Skill)
    (ctx : AnalysisContext) : List String × Except String ExpertAnalysisResult :=
  let scan := e.skills.foldl (skillStep reg) ([], [])
  let skillResults := scan.2
  let findings :=
    if skillResults.isEmpty
    then ["发现 " ++ e.name ++ " 相关的异常模式"] ++ skillResults
    else (["发现 " ++ e.name ++ " 相关的异常模式"] ++ skillResults) ++ ["需要进一步验证"]
  (scan.1,
   Except.ok
     { ExpertName := e.name
       ExpertType := e.expertType
       Analysis := e.name ++ " 的分析结果: 发现 " ++ toString ctx.Alarms.length ++ " 个关键问题"
       Findings := findings
       Confidence := 0.75
       Recommendations := ["建议立即排查", "建议加强监控"] })

/-- `ExpertAgent.Analyze` proper: the loop over the registry the source
builds with `NewSkillRegistry()`. -/
def ExpertAgent.Analyze (e : ExpertAgent) (ctx : AnalysisContext) :
    List String × Except String ExpertAnalysisResult :=
  e.analyzeWith skillRegistry ctx

/-- What one capability identifier contributes to the collected lines:
nothing when missing or failing, its line when it executes successfully. -/
def entryOf (reg : String → Option Skill) (skillType : String) : Option String :=
  match reg skillType with
  | none => none
  | some sk =>
    match sk.execute with
    | Except.error _ => none
    | Except.ok res => some (skillEntry sk res)

/-- The capability loop accumulates exactly: the not-found notes of the
missing capabilities, and the collected lines of the successful ones. -/
lemma skillStep_foldl_char (reg : String → Option Skill) :
    ∀ (skills : List String) (acc : List String × List String),
      skills.foldl (skillStep reg) acc
        = (acc.1 ++ (skills.filter (fun s => (reg s).isNone)).map (fun s => s ++ "(未找到)"),
           acc.2 ++ skills.filterMap (entryOf reg)) := by
  intro skills
  induction skills with
  | nil => intro acc; simp
  | cons s rest ih =>
    intro acc
    rw [List.foldl_cons, ih]
    cases hr : reg s with
    | none =>
      rw [List.filter_cons, List.filterMap_cons]
      simp [skillStep, entryOf, hr]
    | some sk =>
      cases hex : sk.execute with
      | error msg =>
        rw [List.filter_cons, List.filterMap_cons]
        simp [skillStep, entryOf, hr, hex]
      | ok res =>
        rw [List.filter_cons, List.filterMap_cons]
        simp [skillStep, entryOf, hr, hex]

/-- The finding `analyzeWith` always returns: header, one line per successful
capability, trailing note when any succeeded, fixed confidence 0.75. -/
lemma analyzeWith_snd (e : ExpertAgent) (reg : String → Option Skill)
    (ctx : AnalysisContext) :
    (e.analyzeWith reg ctx).2
      = Except.ok
          { ExpertName := e.name
            ExpertType := e.expertType
            Analysis := e.name ++ " 的分析结果: 发现 " ++ toString ctx.Alarms.length
              ++ " 个关键问题"
            Findings :=
              if (e.skills.filterMap (entryOf reg)).isEmpty
              then ["发现 " ++ e.name ++ " 相关的异常模式"] ++ e.skills.filterMap (entryOf reg)
              else (["发现 " ++ e.name ++ " 相关的异常模式"]
                  ++ e.skills.filterMap (entryOf reg)) ++ ["需要进一步验证"]
            Confidence := 0.75
            Recommendations := ["建议立即排查", "建议加强监控"] } := by
  unfold ExpertAgent.analyzeWith
  rw [skillStep_foldl_char reg e.skills ([], [])]
  simp

/-- The console record `analyzeWith` produces: exactly one not-found note per
missing capability, in order. -/
lemma analyzeWith_fst (e : ExpertAgent) (reg : String → Option Skill)
    (ctx : AnalysisContext) :
    (e.analyzeWith reg ctx).1
      = (e.skills.filter (fun s => (reg s).isNone)).map (fun s => s ++ "(未找到)") := by
  unfold ExpertAgent.analyzeWith
  rw [skillStep_foldl_char reg e.skills ([], [])]
  simp

/-- C8: for every registry behaviour and context, the analyzer's `Analyze`
returns a (non-nil) finding and a nil error; a capability missing from the
registry is recorded as not found and skipped, a capability whose execution
errors is skipped, and such a failure neither aborts the remaining
capabilities (the other capabilities' contributions are exactly what they
would have been) nor makes the method itself fail. -/
theorem expertAnalyze_isolated (e : ExpertAgent) (reg : String → Option Skill)
    (ctx : AnalysisContext) :
    (e.analyzeWith reg ctx).2
      = Except.ok
          { ExpertName := e.name
            ExpertType := e.expertType
            Analysis := e.name ++ " 的分析结果: 发现 " ++ toString ctx.Alarms.length
              ++ " 个关键问题"
            Findings :=
              if (e.skills.filterMap (entryOf reg)).isEmpty
              then ["发现 " ++ e.name ++ " 相关的异常模式"] ++ e.skills.filterMap (entryOf reg)
              else (["发现 " ++ e.name ++ " 相关的异常模式"]
                  ++ e.skills.filterMap (entryOf reg)) ++ ["需要进一步验证"]
            Confidence := 0.75
            Recommendations := ["建议立即排查", "建议加强监控"] } ∧
    (e.analyzeWith reg ctx).1
      = (e.skills.filter (fun s => (reg s).isNone)).map (fun s => s ++ "(未找到)") ∧
    (∀ (pre post : List String) (s : String), entryOf reg s = none →
      (pre ++ s :: post).filterMap (entryOf reg)
        = pre.filterMap (entryOf reg) ++ post.filterMap (entryOf reg)) := by
  refine ⟨analyzeWith_snd e reg ctx, analyzeWith_fst e reg ctx, ?_⟩
  intro pre post s hs
  rw [List.filterMap_append, List.filterMap_cons, hs]

/-- Witness for C8 at a concrete input: in the reference registry the
performance analyzer's `cpu_analysis` capability is not registered, and its
absence removes exactly its own contribution. -/
theorem expertAnalyze_isolated_witness :
    entryOf skillRegistry "cpu_analysis" = none ∧
    (["metric_query"] ++ "cpu_analysis" :: ["memory_analysis"]).filterMap
        (entryOf skillRegistry)
      = ["metric_query"].filterMap (entryOf skillRegistry)
        ++ ["memory_analysis"].filterMap (entryOf skillRegistry) :=
  ⟨rfl,
   (expertAnalyze_isolated perfExpert skillRegistry
       { Alarms := mockAlarms, Iteration := 1, MaxRounds := 3, PrevResults := [] }).2.2
     ["metric_query"] ["memory_analysis"] "cpu_analysis" rfl⟩

/-- Every-slot-0.75 scans to `some false`: the early-stop flag never sets. -/
lemma hasHighConfidenceScan_const_low (results : List (Option ExpertAnalysisResult)) :
    (∀ o ∈ results, ∃ x, o = some x ∧ x.Confidence = (0.75 : ℚ)) →
    hasHighConfidenceScan results = some false := by
  induction results with
  | nil => intro _; rfl
  | cons o rest ih =>
    intro h
    obtain ⟨x, rfl, hx⟩ := h o (by simp)
    have hlt : ¬ ((0.8 : ℚ) < x.Confidence) := by rw [hx]; norm_num
    simp only [hasHighConfidenceScan, if_neg hlt]
    exact ih (fun o ho => h o (by simp [ho]))

/-- C10: every finding an analyzer unit's `Analyze` produces has confidence
exactly 0.75 — for any registry behaviour and context — and consequently for
any round whose collected results all carry confidence 0.75 (as every
reachable round of the reference system does), the early-stop condition never
fires and the decision's continue flag is exactly `round < maxRounds`. -/
theorem expertConfidence_reference :
    (∀ (e : ExpertAgent) (reg : String → Option Skill) (ctx : AnalysisContext)
        (r : ExpertAnalysisResult),
      (e.analyzeWith reg ctx).2 = Except.ok r → r.Confidence = 0.75) ∧
    (∀ (iteration maxRounds : ℕ) (results : List (Option ExpertAnalysisResult)),
      (∀ o ∈ results, ∃ x, o = some x ∧ x.Confidence = (0.75 : ℚ)) →
      (makeDecision iteration maxRounds results).map ManagerDecision.ContinueAnalysis
        = some (decide (iteration < maxRounds))) := by
  constructor
  · intro e reg ctx r h
    rw [analyzeWith_snd e reg ctx] at h
    injection h with h
    rw [← h]
  · intro iteration maxRounds results h
    have hscan := hasHighConfidenceScan_const_low results h
    unfold makeDecision
    rw [hscan]
    simp

/-- The analysis context of the reference run's first round. -/
def sampleCtx : AnalysisContext :=
  { Alarms := mockAlarms, Iteration := 1, MaxRounds := 3, PrevResults := [] }

/-- The finding the performance analyzer produces on the reference registry
(extracted from `Analyze`; the fallback branch is unreachable). -/
def perfSample : ExpertAnalysisResult :=
  match (perfExpert.Analyze sampleCtx).2 with
  | Except.ok r => r
  | Except.error _ => cRef

/-- Witness for C10 at concrete inputs: the performance analyzer's reference
finding has confidence 0.75, and a round over results that all carry 0.75
continues exactly when the round is below the bound. -/
theorem expertConfidence_reference_witness :
    ((perfExpert.analyzeWith skillRegistry sampleCtx).2 = Except.ok perfSample ∧
      perfSample.Confidence = 0.75) ∧
    ((∀ o ∈ [some cRef], ∃ x, o = some x ∧ x.Confidence = (0.75 : ℚ)) ∧
      (makeDecision 1 3 [some cRef]).map ManagerDecision.ContinueAnalysis = some true) :=
  ⟨⟨rfl, expertConfidence_reference.1 perfExpert skillRegistry sampleCtx perfSample rfl⟩,
   ⟨fun o ho => ⟨cRef, by simpa using ho, rfl⟩,
    expertConfidence_reference.2 1 3 [some cRef]
      (fun o ho => ⟨cRef, by simpa using ho, rfl⟩)⟩⟩

/-- Witness for C4 at a concrete input: adding an alarm to a pool of capacity
1 with retention 100 at time 0. -/
theorem alarmPool_add_invariant_witness :
    (∀ a ∈ (AlarmPool.Add { alarms := [alarmA], maxSize := 1, retention := 100 } 0 alarmB).alarms,
      (0 : ℤ) - (100 : ℤ) < a.Timestamp) ∧
    (AlarmPool.Add { alarms := [alarmA], maxSize := 1, retention := 100 } 0 alarmB).alarms.length ≤ 1 ∧
    (∃ dropped, dropped ++ (AlarmPool.Add { alarms := [alarmA], maxSize := 1, retention := 100 } 0 alarmB).alarms
      = ([alarmA] ++ [alarmB]).filter (fun a => decide ((0 : ℤ) - (100 : ℤ) < a.Timestamp))) :=
  alarmPool_add_invariant { alarms := [alarmA], maxSize := 1, retention := 100 } 0 alarmB
